import Mathlib

/-!
Verification of the tubelist batch-ingestion pipeline (src/main.py, src/youtube.py).

The Python sources are shallowly embedded below. Pure string manipulation
(marker handling, duration parsing, video-id extraction) is translated
directly from the source; stateful loops (validation, submission) become
recursive functions over explicit state; remote calls become oracle
parameters (a function giving the response of each call); Python exceptions
become Except results. Library functions external to the repository
(datetime.isoformat and fromisoformat) are abstract parameters constrained
only by the properties the code relies on.
-/

set_option linter.unusedVariables false

namespace Tubelist

/-- Boolean test that the first list is an initial segment of the second,
used to model regex literal matching and the Python substring operator. -/
def leadsWith : List Char → List Char → Bool
  | [], _ => true
  | _ :: _, [] => false
  | a :: as, b :: bs => a == b && leadsWith as bs

/-- Model of the Python substring test pat in s over character lists. -/
def containsSub (pat : List Char) : List Char → Bool
  | [] => pat.isEmpty
  | c :: rest => leadsWith pat (c :: rest) || containsSub pat rest

/-- Characters of a string before the first occurrence of pat, modelling
the Python expression s.split(pat)[0] for a nonempty pattern pat. -/
def takeUntil (pat : List Char) : List Char → List Char
  | [] => []
  | c :: rest => if leadsWith pat (c :: rest) then [] else c :: takeUntil pat rest

/-- Model of the Python expression s.lower(). -/
def pyLower (s : String) : String := ⟨s.data.map Char.toLower⟩

/-- Model of the repeated source pattern quota in str(e).lower() that both
source files use to classify an HttpError as quota exhaustion
(src/youtube.py lines 83, 120, 163, 189). -/
def quotaIn (e : String) : Bool := containsSub "quota".data (pyLower e).data

/-! ## parse_duration (src/youtube.py lines 129-147)

The source applies re.match with pattern PT(?:(\d+)H)?(?:(\d+)M)?(?:(\d+)S)?
and sums hours*3600 + minutes*60 + seconds over the present groups.
Since a digit is never the letter H, M or S, each optional group matches
exactly when the maximal digit run at the current position is nonempty and
is immediately followed by the group's letter; otherwise the group is
absent and consumes nothing.  takeDigits and durComponent implement that
reading of the regex; parse_duration anchors at the start, as re.match does. -/

/-- Maximal leading digit run of a character list and the remainder,
modelling what a greedy backslash-d-plus consumes at a position. -/
def takeDigits : List Char → List Char × List Char
  | [] => ([], [])
  | c :: r => if c.isDigit then ((takeDigits r).1.cons c, (takeDigits r).2) else ([], c :: r)

/-- Decimal value of a digit run, modelling the Python int() conversion of
a regex group. -/
def digitsToNat (l : List Char) : Nat := l.foldl (fun n c => n * 10 + (c.toNat - '0'.toNat)) 0

/-- One optional regex group of the duration pattern: digits followed by
the given letter, or nothing (in which case the position is unchanged). -/
def durComponent (letter : Char) (l : List Char) : Option Nat × List Char :=
  match takeDigits l with
  | (d, c :: r) => if c == letter && !d.isEmpty then (some (digitsToNat d), r) else (none, l)
  | (_, []) => (none, l)

/-- Embedding of parse_duration (src/youtube.py lines 129-147). -/
def parse_duration (s : String) : Nat :=
  match s.data with
  | 'P' :: 'T' :: rest =>
    let p1 := durComponent 'H' rest
    let p2 := durComponent 'M' p1.2
    let p3 := durComponent 'S' p2.2
    p1.1.getD 0 * 3600 + p2.1.getD 0 * 60 + p3.1.getD 0
  | _ => 0

/-! ## get_playlist_size (src/youtube.py lines 150-165)

The remote call is an oracle argument: either the totalResults integer of a
successful response, or the text of the HttpError the call raised.  The
embedded function returns ok n for a size and error e for a raised
QuotaExceededException, exactly following the try/except of the source. -/

/-- Embedding of get_playlist_size (src/youtube.py lines 150-165); the
argument is the outcome of the underlying API call. -/
def get_playlist_size (resp : Except String Nat) : Except String Nat :=
  match resp with
  | .ok n => .ok n
  | .error e => if quotaIn e then .error e else .ok 0

/-! ## Checkpoint timestamps and wait_for_quota_reset (src/main.py 52-65, 93-116)

Time is modelled in integer seconds.  datetime.isoformat and
datetime.fromisoformat are external library functions, so they appear as
abstract parameters (an iso string and a parse function); the repository
code manipulating the marker suffix is embedded concretely.  The constant
QUOTA_RESET_HOURS = 24 appears as 24 * 3600 seconds. -/

/-- Marker suffix the source appends to the timestamp on quota exhaustion. -/
def quotaMarker : List Char := " quota_exceeded".data

/-- Embedding of the timestamp construction in save_remaining_videos
(src/main.py lines 54-56): the isoformat text, plus the marker when the
quota flag is set. -/
def saveTimestampField (iso : String) (quotaExceeded : Bool) : String :=
  if quotaExceeded then iso ++ " quota_exceeded" else iso

/-- Embedding of the timestamp recovery in wait_for_quota_reset
(src/main.py lines 99-101): strip everything from the marker onward when
the marker is present. -/
def parsedIso (s : String) : String :=
  if containsSub quotaMarker s.data then ⟨takeUntil quotaMarker s.data⟩ else s

/-- Embedding of the reset-deadline computation in wait_for_quota_reset
(src/main.py lines 98-104): saved timestamp plus 24 hours when one exists,
otherwise now plus 24 hours. -/
def resetTimeOf (fromIso : String → Int) (now : Int) (ts : Option String) : Int :=
  match ts with
  | some s => fromIso (parsedIso s) + 24 * 3600
  | none => now + 24 * 3600

/-- Observable outcome of wait_for_quota_reset: return immediately, exit in
non-blocking mode, or enter the interactive countdown of the given length. -/
inductive WaitOutcome where
  | proceed
  | exitNonBlocking
  | countdown (waitSeconds : Int)
deriving DecidableEq

/-- Embedding of the control flow of wait_for_quota_reset (src/main.py
lines 93-116): compute the deadline, return at once when no wait remains,
otherwise exit (non-blocking) or start the countdown. -/
def wait_for_quota_reset (fromIso : String → Int) (now : Int) (ts : Option String)
    (nonBlocking : Bool) : WaitOutcome :=
  let resetTime := resetTimeOf fromIso now ts
  let waitSeconds := resetTime - now
  if waitSeconds ≤ 0 then .proceed
  else if nonBlocking then .exitNonBlocking
  else .countdown waitSeconds

/-! ## extract_video_id (src/youtube.py lines 48-62) and the extraction
loop of main (src/main.py lines 387-402)

The source checks that the lowercased URL contains a known YouTube domain,
then applies re.search with pattern (?:v=|\/)([0-9A-Za-z_-]{11}): the
leftmost position at which either the literal v= or a slash is immediately
followed by eleven identifier characters, capturing those eleven
characters.  vidSearch scans positions left to right exactly so. -/

/-- Recognized domain substrings (src/youtube.py line 55). -/
def youtubeDomains : List (List Char) :=
  ["youtube.com".data, "youtu.be".data, "www.youtube.com".data, "m.youtube.com".data]

/-- Character class [0-9A-Za-z_-] of the video-id pattern. -/
def isIdChar (c : Char) : Bool := c.isAlphanum || c == '_' || c == '-'

/-- Leftmost match of the pattern (?:v=|\/)([0-9A-Za-z_-]{11}): scan each
position, trying the v= alternative and then the slash alternative. -/
def vidSearch : List Char → Option (List Char)
  | [] => none
  | c :: rest =>
    if c == 'v' && leadsWith ['='] rest
        && ((rest.drop 1).take 11).length == 11 && ((rest.drop 1).take 11).all isIdChar
    then some ((rest.drop 1).take 11)
    else if c == '/' && (rest.take 11).length == 11 && (rest.take 11).all isIdChar
    then some (rest.take 11)
    else vidSearch rest

/-- Embedding of extract_video_id (src/youtube.py lines 48-62). -/
def extract_video_id (url : String) : Option String :=
  if youtubeDomains.any (fun d => containsSub d (pyLower url).data)
  then (vidSearch url.data).map (fun l => ⟨l⟩)
  else none

/-- Model of the Python expression line.strip(). -/
def pyStrip (s : String) : String :=
  ⟨((s.data.dropWhile Char.isWhitespace).reverse.dropWhile Char.isWhitespace).reverse⟩

/-- Embedding of the URL-reading loop of main (src/main.py lines 388-402):
strip each line, skip empty lines and lines already seen, extract an id,
and remember the raw line only when an id was extracted. -/
def extractLoop (seen : List String) : List String → List String
  | [] => []
  | line :: rest =>
    let url := pyStrip line
    if url = "" ∨ url ∈ seen then extractLoop seen rest
    else
      match extract_video_id url with
      | some vid => vid :: extractLoop (url :: seen) rest
      | none => extractLoop seen rest

/-- Working set of ItemIDs extracted from the raw input lines
(src/main.py lines 388-402, starting from an empty seen set). -/
def extractIds (lines : List String) : List String := extractLoop [] lines

/-- Stripped, nonempty input lines in order, the candidate URLs the loop
actually considers. -/
def pyLines (lines : List String) : List String :=
  (lines.map pyStrip).filter (fun u => u ≠ "")

/-- Duplicate removal keeping the first occurrence, used to state what the
seen-set bookkeeping of the extraction loop achieves. -/
def dedupFirstAux (seen : List String) : List String → List String
  | [] => []
  | u :: rest => if u ∈ seen then dedupFirstAux seen rest else u :: dedupFirstAux (u :: seen) rest

/-! ## get_video_details (src/youtube.py lines 88-126)

The remote bulk call is an oracle parameter resolve mapping each requested
batch to its response: either a list of response items (id, uploadStatus,
duration string) or a raised HttpError with its message text.  The results
dictionary is modelled as a function from video id to an optional
(exists, duration) pair, with assignment as pointwise update, matching
Python dict writes where the latest assignment wins. -/

/-- One item of a videos.list response: the fields the source reads. -/
structure RespItem where
  id : String
  uploadStatus : String
  duration : String
deriving DecidableEq

/-- Outcome of one bulk videos.list call, as the source observes it. -/
inductive ChunkResp where
  | ok (items : List RespItem)
  | httpErr (msg : String)
deriving DecidableEq

/-- Whether a call outcome is classified as quota exhaustion by the source
(HttpError whose text contains quota, src/youtube.py lines 119-121). -/
def isQuotaResp : ChunkResp → Bool
  | .ok _ => false
  | .httpErr e => quotaIn e

/-- Model of the dict comprehension building found_videos (src/youtube.py
lines 106-113): keep items whose uploadStatus is processed, keyed by id,
later items overriding earlier ones. -/
def foundVideosOf (items : List RespItem) : String → Option (Bool × Nat) :=
  items.foldl
    (fun f it =>
      if it.uploadStatus = "processed"
      then fun x => if x = it.id then some (it.uploadStatus == "processed", parse_duration it.duration) else f x
      else f)
    (fun _ => none)

/-- Model of the loop writing results[vid] for every vid of a batch, with
the value given by g (src/youtube.py lines 116-117 and 123-124). -/
def batchAssign (g : String → Bool × Nat) (results : String → Option (Bool × Nat))
    (batch : List String) : String → Option (Bool × Nat) :=
  batch.foldl (fun r vid => fun x => if x = vid then some (g vid) else r x) results

/-- Embedding of the chunk loop of get_video_details (src/youtube.py lines
94-126): take the next 50 ids, issue the call, on success record each id
from found_videos with default (false, 0), on a non-quota HttpError record
every id of the batch as (false, 0), and on a quota HttpError raise. -/
def get_video_details_aux (resolve : List String → ChunkResp) (ids : List String)
    (results : String → Option (Bool × Nat)) : Except String (String → Option (Bool × Nat)) :=
  if h : ids = [] then .ok results
  else
    match resolve (ids.take 50) with
    | .httpErr e =>
      if quotaIn e then .error e
      else get_video_details_aux resolve (ids.drop 50)
        (batchAssign (fun _ => (false, 0)) results (ids.take 50))
    | .ok items =>
      get_video_details_aux resolve (ids.drop 50)
        (batchAssign (fun vid => (foundVideosOf items vid).getD (false, 0)) results (ids.take 50))
termination_by ids.length
decreasing_by
  all_goals simp only [List.length_drop]
  all_goals cases ids with
  | nil => exact absurd rfl h
  | cons a l => simp; omega

/-- Embedding of get_video_details (src/youtube.py lines 88-126), starting
from an empty results dictionary. -/
def get_video_details (resolve : List String → ChunkResp) (ids : List String) :
    Except String (String → Option (Bool × Nat)) :=
  get_video_details_aux resolve ids (fun _ => none)

/-- Partition of the id list into the batches the chunk loop issues
(ids[i:i+50] for i = 0, 50, 100, ...). -/
def chunksOf (l : List String) : List (List String) :=
  if h : l = [] then [] else l.take 50 :: chunksOf (l.drop 50)
termination_by l.length
decreasing_by
  cases l with
  | nil => exact absurd rfl h
  | cons a t => simp; omega

/-! ## Eligibility filtering in main (src/main.py lines 440-472)

The validation loop classifies each video id using the resolved details
(an exists flag and a duration in seconds), the playlist's current video
ids, and the optional duration bounds in fractional minutes.  Durations in
minutes are exact rationals here; the source computes them in floating
point, but every comparison the claims are about is between values the
spec treats as exact.  Python truthiness of the optional bound (0.0 is
falsy, so a zero bound disables the check, src/main.py lines 456 and 461)
is embedded explicitly. -/

/-- Outcome of the per-item classification of the validation loop. -/
inductive Decision where
  | dupSkip
  | unavailable
  | tooShort
  | tooLong
  | accept
deriving DecidableEq

/-- Model of the condition args.min_duration and duration_minutes less than
args.min_duration (src/main.py line 456): false when the option is absent
or zero (Python falsy), else the strict comparison. -/
def minDurationRejects (minD : Option ℚ) (dm : ℚ) : Bool :=
  match minD with
  | none => false
  | some m => !(m == 0) && decide (dm < m)

/-- Model of the condition args.max_duration and duration_minutes greater
than args.max_duration (src/main.py line 461). -/
def maxDurationRejects (maxD : Option ℚ) (dm : ℚ) : Bool :=
  match maxD with
  | none => false
  | some m => !(m == 0) && decide (m < dm)

/-- Embedding of the classification of one id in the validation loop
(src/main.py lines 441-466): duplicate check against the fetched playlist
contents (skipped when the fetch degraded to an empty set, by Python
truthiness of the set), availability, then the duration bounds. -/
def classifyVideo (existing : List String) (minD maxD : Option ℚ)
    (details : String → Bool × Nat) (vid : String) : Decision :=
  let ex := (details vid).1
  let duration := (details vid).2
  if existing ≠ [] ∧ vid ∈ existing then .dupSkip
  else if !ex then .unavailable
  else
    let durationMinutes : ℚ := (duration : ℚ) / 60
    if minDurationRejects minD durationMinutes then .tooShort
    else if maxDurationRejects maxD durationMinutes then .tooLong
    else .accept

/-- Model of the Python slice l[:k] for an integer k, including the
negative-index semantics. -/
def pySliceTo (l : List String) (k : Int) : List String :=
  if 0 ≤ k then l.take k.toNat else l.take ((l.length : Int) + k).toNat

/-- Embedding of the accumulation of valid_video_ids with the capacity
check (src/main.py lines 440-472): append each accepted id, and as soon as
current_size plus the accumulated length exceeds 5000, truncate to the
first 5000 - current_size ids and stop. -/
def buildValid (currentSize : Nat) (existing : List String) (minD maxD : Option ℚ)
    (details : String → Bool × Nat) (acc : List String) : List String → List String
  | [] => acc
  | vid :: rest =>
    match classifyVideo existing minD maxD details vid with
    | .accept =>
      let acc' := acc ++ [vid]
      if currentSize + acc'.length > 5000
      then pySliceTo acc' (5000 - (currentSize : Int))
      else buildValid currentSize existing minD maxD details acc' rest
    | _ => buildValid currentSize existing minD maxD details acc rest

/-- Embedding of the playlist-selection guard plus the validation loop
(src/main.py lines 376-379 and 440-472): main returns early when the
selected playlist already holds 5000 or more videos, otherwise the
eligible list is built by the loop above. -/
def mainValidation (currentSize : Nat) (existing : List String) (minD maxD : Option ℚ)
    (details : String → Bool × Nat) (videoIds : List String) : Option (List String) :=
  if currentSize ≥ 5000 then none
  else some (buildValid currentSize existing minD maxD details [] videoIds)

/-! ## process_videos (src/main.py lines 145-266)

The per-item interaction with the remote service is an oracle env giving,
for each index into valid_video_ids, what the body of the inner loop
observes for that item: a duplicate skip, a successful insertion, a null
response (error counted, processing continues), or a raised
QuotaExceededException.  The embedding follows the index arithmetic of the
source: the inner loop runs j over the current batch, and on a quota
exception the source saves at current_position = i + j (src/main.py lines
225-229) and continues from that index (line 244); successive indices are
therefore traversed one at a time regardless of the 50-item batching, so
the traversal is embedded directly on the item index.  One run of
processVideosRun is one pass up to the first quota exception: it returns
the indices whose processing completed and the checkpoint save performed
by save_remaining_videos, if any. -/

/-- What the submission loop observes for one item. -/
inductive SubmitOutcome where
  | added
  | dupSkip
  | errSkip
  | quota
deriving DecidableEq

/-- Arguments of a call to save_remaining_videos (src/main.py lines 52-65):
the saved pending suffix videos[current_index:] and the index it was taken
at.  The timestamp field of the saved record is covered by
saveTimestampField above. -/
structure SaveCall where
  pending : List String
  savedIndex : Nat
deriving DecidableEq

/-- Embedding of the item traversal of process_videos from a start index:
each non-quota item completes and the loop moves on; the first quota
exception saves videos.drop i at index i (save_remaining_videos with
current_index = i + j, src/main.py lines 52-65 and 225-229) and ends the
pass.  Returns the completed indices in order and the save, if any. -/
def processVideosRun (env : Nat → SubmitOutcome) (videos : List String) (i : Nat) :
    List Nat × Option SaveCall :=
  if h : i < videos.length then
    match env i with
    | .quota => ([], some ⟨videos.drop i, i⟩)
    | _ =>
      let r := processVideosRun env videos (i + 1)
      (i :: r.1, r.2)
  else ([], none)
termination_by videos.length - i
decreasing_by all_goals omega

/-- Rendering of one optional duration component as digits followed by its
letter, used to state what the duration regex accepts. -/
def renderComp (letter : Char) (o : Option (List Char)) : List Char :=
  match o with
  | none => []
  | some d => d ++ [letter]

/-- Working set with the ItemID a repeated across two chunks (positions 0
and 50 of a 51-item list), as arises when two distinct raw lines denote
the same item. -/
def dupIds : List String := "a" :: (List.replicate 49 "b" ++ ["a"])

/-- Chunk responses for dupIds: the second chunk (the repeated id alone)
succeeds with a processed one-second item; every other call, in
particular the first chunk's, fails with a non-quota HttpError. -/
def dupResolve : List String → ChunkResp := fun batch =>
  if batch = ["a"] then ChunkResp.ok [⟨"a", "processed", "PT1S"⟩]
  else ChunkResp.httpErr "boom"

/-! # Theorems -/

/-- C5 counterexample: a failing remote call whose error text contains
quota is not treated as size 0; get_playlist_size re-raises it as
QuotaExceededException (src/youtube.py lines 162-165). -/
theorem playlist_size_quota_propagates :
    get_playlist_size (Except.error "quotaExceeded") = Except.error "quotaExceeded" ∧
    get_playlist_size (Except.error "quotaExceeded") ≠ Except.ok 0 := by
  refine ⟨rfl, ?_⟩
  intro hC
  rw [show get_playlist_size (Except.error "quotaExceeded") = Except.error "quotaExceeded"
    from rfl] at hC
  exact Except.noConfusion hC

/-- C5 amended: get_playlist_size treats a failing remote call as size 0
exactly when the failure is not classified as quota exhaustion; a
quota-classified failure propagates as QuotaExceededException
(src/youtube.py lines 150-165). -/
theorem playlist_size_failure_behavior (n : Nat) (e : String) :
    get_playlist_size (Except.ok n) = Except.ok n ∧
    get_playlist_size (Except.error e) =
      (if quotaIn e then Except.error e else Except.ok 0) :=
  ⟨rfl, rfl⟩

/-- C7: when the computed reset deadline of a saved timestamp is already
in the past, wait_for_quota_reset returns immediately, with no countdown,
prompt, or process exit, regardless of the non-blocking flag
(src/main.py lines 106-108 precede the non-blocking check at line 113). -/
theorem wait_proceeds_when_deadline_past (fromIso : String → Int) (now : Int)
    (s : String) (nonBlocking : Bool)
    (h : resetTimeOf fromIso now (some s) < now) :
    wait_for_quota_reset fromIso now (some s) nonBlocking = .proceed := by
  have hw : resetTimeOf fromIso now (some s) - now ≤ 0 := by omega
  simp [wait_for_quota_reset, hw]

/-- Witness for C7 at a concrete expired timestamp with the non-blocking
flag set. -/
theorem wait_proceeds_when_deadline_past_witness :
    wait_for_quota_reset (fun _ => 0) 100000 (some "x") true = .proceed :=
  wait_proceeds_when_deadline_past (fun _ => 0) 100000 "x" true (by decide)

/-- C10: supplying a zero minimum-duration (or maximum-duration) bound
disables that filter entirely, because the Python truthiness guard on the
option value is false at 0.0 (src/main.py lines 456, 461). -/
theorem zero_duration_bound_disables (existing : List String) (minD maxD : Option ℚ)
    (details : String → Bool × Nat) (vid : String) :
    classifyVideo existing (some 0) maxD details vid
        = classifyVideo existing none maxD details vid ∧
    classifyVideo existing minD (some 0) details vid
        = classifyVideo existing minD none details vid := by
  constructor <;> simp [classifyVideo, minDurationRejects, maxDurationRejects]

/-- C9: with a nonzero configured minimum (respectively maximum) duration
bound, an item whose duration in minutes equals the bound is accepted, an
item strictly below the minimum is rejected as too short, and an item
strictly above the maximum is rejected as too long: both comparisons are
strict (src/main.py lines 455-464). -/
theorem duration_boundary_strict (existing : List String) (vid : String)
    (details : String → Bool × Nat) (m M : ℚ) (d : Nat)
    (hdup : ¬(existing ≠ [] ∧ vid ∈ existing)) (hdet : details vid = (true, d))
    (hm : 0 < m) (hM : 0 < M) :
    (((d : ℚ) / 60 = m) →
        classifyVideo existing (some m) none details vid = .accept) ∧
    (((d : ℚ) / 60 < m) →
        classifyVideo existing (some m) none details vid = .tooShort) ∧
    (((d : ℚ) / 60 = M) →
        classifyVideo existing none (some M) details vid = .accept) ∧
    ((M < (d : ℚ) / 60) →
        classifyVideo existing none (some M) details vid = .tooLong) := by
  have hm0 : ¬ m = 0 := by positivity
  have hM0 : ¬ M = 0 := by positivity
  refine ⟨fun hdm => ?_, fun hdm => ?_, fun hdm => ?_, fun hdm => ?_⟩
  · simp [classifyVideo, hdet, hdup, minDurationRejects, maxDurationRejects, hdm, hm0]
  · simp [classifyVideo, hdet, hdup, minDurationRejects, maxDurationRejects, hdm, hm0]
  · simp [classifyVideo, hdet, hdup, minDurationRejects, maxDurationRejects, hdm, hM0]
  · simp [classifyVideo, hdet, hdup, minDurationRejects, maxDurationRejects, hdm, hM0,
      not_lt.mpr (le_of_lt hdm)]

/-- Witness for C9: a 120-second item meets a 2-minute minimum bound
exactly and is accepted. -/
theorem duration_boundary_strict_witness :
    classifyVideo [] (some 2) none (fun _ => (true, 120)) "x" = .accept :=
  (duration_boundary_strict [] "x" (fun _ => (true, 120)) 2 2 120
    (by simp) rfl (by norm_num) (by norm_num)).1 (by norm_num)

theorem leadsWith_self (l : List Char) : leadsWith l l = true := by
  induction l with
  | nil => rfl
  | cons c r ih => simp [leadsWith, ih]

theorem containsSub_append_self (l : List Char) :
    containsSub quotaMarker (l ++ quotaMarker) = true := by
  induction l with
  | nil => decide
  | cons c r ih => simp [containsSub, ih]

theorem takeUntil_append_marker (l : List Char) (hsp : ' ' ∉ l) :
    takeUntil quotaMarker (l ++ quotaMarker) = l := by
  induction l with
  | nil => decide
  | cons c r ih =>
    have hc : c ≠ ' ' := fun hc => hsp (hc ▸ List.mem_cons_self c r)
    have hr : ' ' ∉ r := fun hm => hsp (List.mem_cons_of_mem c hm)
    have hlw : leadsWith quotaMarker (c :: (r ++ quotaMarker)) = false := by
      simp [quotaMarker, leadsWith]
      intro h
      exact absurd h.symm hc
    simp [takeUntil, hlw, ih hr]

/-- C6: a checkpoint saved with the quota flag at time t embeds the
quota-exhaustion marker in the timestamp field, and wait_for_quota_reset
recognizes exactly that marker, strips it, recovers t, and computes the
reset deadline t + 24 hours; with no saved timestamp the deadline is
now + 24 hours (src/main.py lines 52-65 and 93-104).  The isoformat text
and its parse are abstract parameters: the text contains no space (true of
datetime.isoformat) and fromIso inverts it at this timestamp. -/
theorem quota_marker_round_trip (fromIso : String → Int) (iso : String) (t now : Int)
    (hsp : ' ' ∉ iso.data) (hparse : fromIso iso = t) :
    resetTimeOf fromIso now (some (saveTimestampField iso true)) = t + 24 * 3600 ∧
    resetTimeOf fromIso now none = now + 24 * 3600 := by
  refine ⟨?_, rfl⟩
  have hfield : saveTimestampField iso true = iso ++ " quota_exceeded" := rfl
  have hdata : (iso ++ " quota_exceeded").data = iso.data ++ quotaMarker := by
    simp [quotaMarker]
  have hmk : (⟨iso.data⟩ : String) = iso := by
    cases iso
    rfl
  simp only [resetTimeOf, parsedIso, hfield, hdata,
    containsSub_append_self iso.data, if_pos, takeUntil_append_marker iso.data hsp,
    hmk, hparse]

/-- Witness for C6 at a concrete space-free timestamp text. -/
theorem quota_marker_round_trip_witness :
    resetTimeOf (fun s => if s = "2024" then 7 else 0) 11
        (some (saveTimestampField "2024" true)) = 7 + 24 * 3600 ∧
    resetTimeOf (fun s => if s = "2024" then 7 else 0) 11 none = 11 + 24 * 3600 :=
  quota_marker_round_trip (fun s => if s = "2024" then 7 else 0) "2024" 7 11
    (by decide) (by simp)

theorem takeDigits_append (d l : List Char) (hd : ∀ c ∈ d, c.isDigit = true)
    (hl : ∀ c r, l = c :: r → c.isDigit = false) :
    takeDigits (d ++ l) = (d, l) := by
  induction d with
  | nil =>
    cases l with
    | nil => rfl
    | cons c r => simp [takeDigits, hl c r rfl]
  | cons a d ih =>
    have ha : a.isDigit = true := hd a (List.mem_cons_self a d)
    have hd' : ∀ c ∈ d, c.isDigit = true := fun c hc => hd c (List.mem_cons_of_mem a hc)
    simp [takeDigits, ha, ih hd']

theorem durComponent_hit (letter : Char) (d tail : List Char)
    (hd : ∀ c ∈ d, c.isDigit = true) (hne : d ≠ []) (hlet : letter.isDigit = false) :
    durComponent letter (d ++ letter :: tail) = (some (digitsToNat d), tail) := by
  have := takeDigits_append d (letter :: tail) hd
    (fun c r h => by cases h; exact hlet)
  simp [durComponent, this, hne]

theorem durComponent_miss (letter other : Char) (d tail : List Char)
    (hd : ∀ c ∈ d, c.isDigit = true) (hother : other.isDigit = false)
    (hne : other ≠ letter) :
    durComponent letter (d ++ other :: tail) = (none, d ++ other :: tail) := by
  have := takeDigits_append d (other :: tail) hd
    (fun c r h => by cases h; exact hother)
  simp [durComponent, this, hne]

theorem durComponent_empty (letter : Char) : durComponent letter [] = (none, []) := rfl

theorem stageS (s : Option (List Char))
    (gs : ∀ d, s = some d → d ≠ [] ∧ ∀ c ∈ d, c.isDigit = true) :
    durComponent 'S' (renderComp 'S' s) = (s.map digitsToNat, []) := by
  cases s with
  | none => rfl
  | some ds =>
    obtain ⟨hne, hd⟩ := gs ds rfl
    simpa [renderComp] using durComponent_hit 'S' ds [] hd hne (by decide)

theorem stageM (m s : Option (List Char))
    (gm : ∀ d, m = some d → d ≠ [] ∧ ∀ c ∈ d, c.isDigit = true)
    (gs : ∀ d, s = some d → d ≠ [] ∧ ∀ c ∈ d, c.isDigit = true) :
    durComponent 'M' (renderComp 'M' m ++ renderComp 'S' s)
      = (m.map digitsToNat, renderComp 'S' s) := by
  cases m with
  | some dm =>
    obtain ⟨hne, hd⟩ := gm dm rfl
    simpa [renderComp, List.append_assoc] using
      durComponent_hit 'M' dm (renderComp 'S' s) hd hne (by decide)
  | none =>
    cases s with
    | none => rfl
    | some ds =>
      obtain ⟨hne, hd⟩ := gs ds rfl
      simpa [renderComp] using
        durComponent_miss 'M' 'S' ds [] hd (by decide) (by decide)

theorem stageH (h m s : Option (List Char))
    (gh : ∀ d, h = some d → d ≠ [] ∧ ∀ c ∈ d, c.isDigit = true)
    (gm : ∀ d, m = some d → d ≠ [] ∧ ∀ c ∈ d, c.isDigit = true)
    (gs : ∀ d, s = some d → d ≠ [] ∧ ∀ c ∈ d, c.isDigit = true) :
    durComponent 'H' (renderComp 'H' h ++ (renderComp 'M' m ++ renderComp 'S' s))
      = (h.map digitsToNat, renderComp 'M' m ++ renderComp 'S' s) := by
  cases h with
  | some dh =>
    obtain ⟨hne, hd⟩ := gh dh rfl
    simpa [renderComp, List.append_assoc] using
      durComponent_hit 'H' dh (renderComp 'M' m ++ renderComp 'S' s) hd hne (by decide)
  | none =>
    cases m with
    | some dm =>
      obtain ⟨hne, hd⟩ := gm dm rfl
      simpa [renderComp, List.append_assoc] using
        durComponent_miss 'H' 'M' dm (renderComp 'S' s) hd (by decide) (by decide)
    | none =>
      cases s with
      | none => rfl
      | some ds =>
        obtain ⟨hne, hd⟩ := gs ds rfl
        simpa [renderComp] using
          durComponent_miss 'H' 'S' ds [] hd (by decide) (by decide)

theorem parse_duration_PT (rest : List Char) :
    parse_duration ⟨'P' :: 'T' :: rest⟩ =
      (durComponent 'H' rest).1.getD 0 * 3600 +
      (durComponent 'M' (durComponent 'H' rest).2).1.getD 0 * 60 +
      (durComponent 'S' (durComponent 'M' (durComponent 'H' rest).2).2).1.getD 0 := rfl

/-- C8 amended: parse_duration parses an hours-minutes-seconds token at
the start of the string, each component optional and defaulting to zero,
returning hours*3600 + minutes*60 + seconds; a string not starting with PT
parses to zero.  Text after the parsed components is ignored rather than
forcing a zero result (see the counterexample). -/
theorem parse_duration_components :
    (∀ (h m s : Option (List Char)),
      (∀ d, h = some d → d ≠ [] ∧ ∀ c ∈ d, c.isDigit = true) →
      (∀ d, m = some d → d ≠ [] ∧ ∀ c ∈ d, c.isDigit = true) →
      (∀ d, s = some d → d ≠ [] ∧ ∀ c ∈ d, c.isDigit = true) →
      parse_duration ⟨'P' :: 'T' ::
          (renderComp 'H' h ++ (renderComp 'M' m ++ renderComp 'S' s))⟩ =
        (h.map digitsToNat).getD 0 * 3600 + (m.map digitsToNat).getD 0 * 60 +
          (s.map digitsToNat).getD 0) ∧
    (∀ str : String, leadsWith ['P', 'T'] str.data = false → parse_duration str = 0) := by
  constructor
  · intro h m s gh gm gs
    rw [parse_duration_PT, stageH h m s gh gm gs]
    simp only
    rw [stageM m s gm gs]
    simp only
    rw [stageS s gs]
  · intro str hlw
    rw [parse_duration.eq_def]
    split
    · rename_i l heq
      rw [heq] at hlw
      simp [leadsWith] at hlw
    · rfl

/-- C8 counterexample: the ISO-8601-malformed duration text PT5M3H (an
hours component after the minutes component) does not parse to zero; the
regex match stops after the minutes component and the trailing text is
ignored, yielding 300 seconds. -/
theorem parse_duration_malformed_nonzero :
    parse_duration "PT5M3H" = 300 ∧ parse_duration "PT5M3H" ≠ 0 := by
  refine ⟨rfl, ?_⟩
  intro hc
  rw [show parse_duration "PT5M3H" = 300 from rfl] at hc
  omega

/-- Witness for C8: one hour and twenty-three seconds, with the minutes
component absent. -/
theorem parse_duration_components_witness :
    parse_duration ⟨'P' :: 'T' ::
        (renderComp 'H' (some ['1']) ++
          (renderComp 'M' none ++ renderComp 'S' (some ['2', '3'])))⟩ = 3623 :=
  (parse_duration_components.1 (some ['1']) none (some ['2', '3'])
      (by decide) (by decide) (by decide)).trans (by decide)

theorem buildValid_le (currentSize : Nat) (existing : List String) (minD maxD : Option ℚ)
    (details : String → Bool × Nat) :
    ∀ (ids acc : List String), currentSize < 5000 → currentSize + acc.length ≤ 5000 →
      currentSize + (buildValid currentSize existing minD maxD details acc ids).length ≤ 5000 := by
  intro ids
  induction ids with
  | nil => intro acc h1 h2; simpa [buildValid] using h2
  | cons vid rest ih =>
    intro acc h1 h2
    rcases hcl : classifyVideo existing minD maxD details vid with _ | _ | _ | _ | _
    case accept =>
      by_cases hover : currentSize + (acc ++ [vid]).length > 5000
      · have htn : ((5000 : Int) - (currentSize : Int)).toNat = 5000 - currentSize := by omega
        simp only [buildValid, hcl, hover, if_pos, pySliceTo]
        rw [if_pos (by omega)]
        simp only [htn, List.length_take]
        omega
      · simp only [buildValid, hcl, hover, if_neg, ite_false]
        exact ih (acc ++ [vid]) h1 (by simp at hover ⊢; omega)
    all_goals
      simp only [buildValid, hcl]
      exact ih acc h1 h2

/-- C2: whenever main proceeds past the 5000-video guard (src/main.py
lines 376-379), the eligible list built by the validation loop satisfies
current_size + length ≤ 5000: as soon as an accepted id pushes the sum
past 5000 the list is truncated to the last ids that fit and the loop
stops (src/main.py lines 466-472). -/
theorem capacity_invariant (currentSize : Nat) (existing : List String) (minD maxD : Option ℚ)
    (details : String → Bool × Nat) (videoIds l : List String)
    (h : mainValidation currentSize existing minD maxD details videoIds = some l) :
    currentSize + l.length ≤ 5000 := by
  by_cases hcs : currentSize ≥ 5000
  · simp [mainValidation, hcs] at h
  · simp only [mainValidation, hcs, if_neg, ite_false, Option.some.injEq] at h
    rw [← h]
    exact buildValid_le currentSize existing minD maxD details videoIds [] (by omega) (by simp; omega)

/-- Witness for C2: a playlist of size 4999; two accepted candidates are
truncated to the single one that fits. -/
theorem capacity_invariant_witness :
    4999 + (["aaaaaaaaaaa"] : List String).length ≤ 5000 :=
  capacity_invariant 4999 [] none none (fun _ => (true, 120))
    ["aaaaaaaaaaa", "bbbbbbbbbbb"] ["aaaaaaaaaaa"] (by decide)

theorem processVideosRun_no_quota (env : Nat → SubmitOutcome) (videos : List String) :
    ∀ (n i : Nat), videos.length - i ≤ n →
      (∀ j, i ≤ j → j < videos.length → env j ≠ .quota) →
      processVideosRun env videos i = (List.range' i (videos.length - i), none) := by
  intro n
  induction n with
  | zero =>
    intro i hle hq
    have hi : ¬ i < videos.length := by omega
    have h0 : videos.length - i = 0 := by omega
    rw [processVideosRun]
    simp [hi, h0]
  | succ n ih =>
    intro i hle hq
    by_cases hi : i < videos.length
    · have henv : env i ≠ .quota := hq i le_rfl hi
      have hrec : processVideosRun env videos (i + 1)
          = (List.range' (i + 1) (videos.length - (i + 1)), none) :=
        ih (i + 1) (by omega) (fun j hj hj2 => hq j (by omega) hj2)
      have hlen : videos.length - i = (videos.length - (i + 1)) + 1 := by omega
      rw [processVideosRun]
      cases he : env i with
      | quota => exact absurd he henv
      | added => simp only [hi, dite_true, dif_pos, he, hrec, hlen, List.range'_succ]
      | dupSkip => simp only [hi, dite_true, dif_pos, he, hrec, hlen, List.range'_succ]
      | errSkip => simp only [hi, dite_true, dif_pos, he, hrec, hlen, List.range'_succ]
    · have h0 : videos.length - i = 0 := by omega
      rw [processVideosRun]
      simp [hi, h0]

theorem processVideosRun_first_quota (env : Nat → SubmitOutcome) (videos : List String) :
    ∀ (n i k : Nat), k - i ≤ n → i ≤ k → k < videos.length → env k = .quota →
      (∀ j, i ≤ j → j < k → env j ≠ .quota) →
      processVideosRun env videos i
        = (List.range' i (k - i), some ⟨videos.drop k, k⟩) := by
  intro n
  induction n with
  | zero =>
    intro i k hle hik hk hq hbefore
    have hik' : i = k := by omega
    subst hik'
    rw [processVideosRun]
    simp [hk, hq]
  | succ n ih =>
    intro i k hle hik hk hq hbefore
    by_cases hik' : i = k
    · subst hik'
      rw [processVideosRun]
      simp [hk, hq]
    · have hi : i < videos.length := by omega
      have henv : env i ≠ .quota := hbefore i le_rfl (by omega)
      have hrec : processVideosRun env videos (i + 1)
          = (List.range' (i + 1) (k - (i + 1)), some ⟨videos.drop k, k⟩) :=
        ih (i + 1) k (by omega) (by omega) hk hq (fun j hj hj2 => hbefore j (by omega) hj2)
      have hlen : k - i = (k - (i + 1)) + 1 := by omega
      rw [processVideosRun]
      cases he : env i with
      | quota => exact absurd he henv
      | added => simp only [hi, dite_true, dif_pos, he, hrec, hlen, List.range'_succ]
      | dupSkip => simp only [hi, dite_true, dif_pos, he, hrec, hlen, List.range'_succ]
      | errSkip => simp only [hi, dite_true, dif_pos, he, hrec, hlen, List.range'_succ]

/-- C1: if the submission loop hits quota exhaustion first at item index k
(with k at or after the start index), the pass saves a checkpoint whose
pending items are exactly the suffix videos[k:] taken at index k
(src/main.py lines 52-65 and 225-229), the pass completed exactly the
indices from start up to but not including k, and a resumed run from the
saved index k with quota available completes exactly the indices from k to
the end: together the two passes cover each index from start to the end
exactly once, so no completed item is resubmitted and no unattempted item
is skipped. -/
theorem submission_checkpoint_resume (env env2 : Nat → SubmitOutcome)
    (videos : List String) (start k : Nat) (hstart : start ≤ k)
    (hk : k < videos.length) (hq : env k = .quota)
    (hbefore : ∀ j, start ≤ j → j < k → env j ≠ .quota)
    (hclean : ∀ j, env2 j ≠ .quota) :
    processVideosRun env videos start
        = (List.range' start (k - start), some ⟨videos.drop k, k⟩) ∧
    processVideosRun env2 videos k
        = (List.range' k (videos.length - k), none) ∧
    List.range' start (k - start) ++ List.range' k (videos.length - k)
        = List.range' start (videos.length - start) := by
  refine ⟨processVideosRun_first_quota env videos (k - start) start k le_rfl hstart hk hq hbefore,
    processVideosRun_no_quota env2 videos (videos.length - k) k le_rfl
      (fun j _ _ => hclean j), ?_⟩
  have h1 : k = start + (k - start) := by omega
  have h2 : videos.length - start = (videos.length - k) + (k - start) := by omega
  rw [h2, ← List.range'_append_1 start (k - start) (videos.length - k)]
  rw [← h1]

/-- Witness for C1: three items with quota exhaustion at index 1; the
checkpoint holds the suffix from index 1 and the resumed pass completes
indices 1 and 2. -/
theorem submission_checkpoint_resume_witness :
    processVideosRun (fun j => if j = 1 then .quota else .added) ["a", "b", "c"] 0
        = ([0], some ⟨["b", "c"], 1⟩) ∧
    processVideosRun (fun _ => .added) ["a", "b", "c"] 1 = ([1, 2], none) ∧
    ([0] : List Nat) ++ [1, 2] = [0, 1, 2] := by
  have h := submission_checkpoint_resume (fun j => if j = 1 then .quota else .added)
    (fun _ => .added) ["a", "b", "c"] 0 1 (by omega) (by simp) (by simp)
    (fun j h1 h2 => by
      have : j = 0 := by omega
      subst this
      simp)
    (fun j => by simp)
  obtain ⟨ha, hb, _⟩ := h
  refine ⟨?_, ?_, by decide⟩
  · rw [ha]
    decide
  · rw [hb]
    decide

theorem extractLoop_eq_dedup (lines : List String) :
    ∀ (seenL seenD : List String),
      (∀ u, u ∈ seenL → u ∈ seenD) →
      (∀ u, u ∈ seenD → u ∉ seenL → extract_video_id u = none) →
      extractLoop seenL lines
        = List.filterMap extract_video_id (dedupFirstAux seenD (pyLines lines)) := by
  induction lines with
  | nil => intro seenL seenD hsub hprop; rfl
  | cons line rest ih =>
    intro seenL seenD hsub hprop
    by_cases hurl : pyStrip line = ""
    · have hpy : pyLines (line :: rest) = pyLines rest := by simp [pyLines, hurl]
      have hl : extractLoop seenL (line :: rest) = extractLoop seenL rest := by
        simp [extractLoop, hurl]
      rw [hl, hpy]
      exact ih seenL seenD hsub hprop
    · have hpy : pyLines (line :: rest) = pyStrip line :: pyLines rest := by
        simp [pyLines, hurl]
      rw [hpy]
      by_cases hL : pyStrip line ∈ seenL
      · have hD : pyStrip line ∈ seenD := hsub _ hL
        have hl : extractLoop seenL (line :: rest) = extractLoop seenL rest := by
          simp [extractLoop, hL]
        rw [hl]
        simp only [dedupFirstAux, hD, if_pos, ite_true]
        exact ih seenL seenD hsub hprop
      · by_cases hD : pyStrip line ∈ seenD
        · have hnone : extract_video_id (pyStrip line) = none := hprop _ hD hL
          have hl : extractLoop seenL (line :: rest) = extractLoop seenL rest := by
            simp [extractLoop, hurl, hL, hnone]
          rw [hl]
          simp only [dedupFirstAux, hD, if_pos, ite_true]
          exact ih seenL seenD hsub hprop
        · simp only [dedupFirstAux, hD, if_neg, ite_false]
          cases hex : extract_video_id (pyStrip line) with
          | some v =>
            have hl : extractLoop seenL (line :: rest)
                = v :: extractLoop (pyStrip line :: seenL) rest := by
              simp [extractLoop, hurl, hL, hex]
            rw [hl, List.filterMap_cons, hex]
            have hsub' : ∀ u, u ∈ pyStrip line :: seenL → u ∈ pyStrip line :: seenD := by
              intro u hu
              rcases List.mem_cons.mp hu with h | h
              · exact h ▸ List.mem_cons_self _ _
              · exact List.mem_cons_of_mem _ (hsub u h)
            have hprop' : ∀ u, u ∈ pyStrip line :: seenD →
                u ∉ pyStrip line :: seenL → extract_video_id u = none := by
              intro u hu hnu
              rcases List.mem_cons.mp hu with h | h
              · exact absurd (h ▸ List.mem_cons_self _ _) hnu
              · exact hprop u h (fun hc => hnu (List.mem_cons_of_mem _ hc))
            rw [ih (pyStrip line :: seenL) (pyStrip line :: seenD) hsub' hprop']
          | none =>
            have hl : extractLoop seenL (line :: rest) = extractLoop seenL rest := by
              simp [extractLoop, hurl, hL, hex]
            rw [hl, List.filterMap_cons, hex]
            have hsub' : ∀ u, u ∈ seenL → u ∈ pyStrip line :: seenD :=
              fun u hu => List.mem_cons_of_mem _ (hsub u hu)
            have hprop' : ∀ u, u ∈ pyStrip line :: seenD →
                u ∉ seenL → extract_video_id u = none := by
              intro u hu hnu
              rcases List.mem_cons.mp hu with h | h
              · exact h ▸ hex
              · exact hprop u h hnu
            exact ih seenL (pyStrip line :: seenD) hsub' hprop'

/-- C4 amended: the extraction loop removes duplicates by raw (stripped)
line, preserving order of first appearance: its output equals mapping
extract_video_id over the stripped nonempty lines with duplicate lines
removed, keeping first occurrences (src/main.py lines 387-402).  The
resulting ItemID sequence is therefore unique per raw line, but may
contain the same ItemID twice when two distinct raw lines denote the same
item (see the counterexample). -/
theorem extraction_dedup_by_raw_line (lines : List String) :
    extractIds lines
      = List.filterMap extract_video_id (dedupFirstAux [] (pyLines lines)) :=
  extractLoop_eq_dedup lines [] [] (by simp) (by simp)

/-- C4 counterexample: two distinct raw lines, a short-form URL and a
watch URL for the same video, both survive line-level deduplication and
yield the same ItemID twice, so the extracted working set is not unique
by ItemID. -/
theorem extraction_itemid_duplicate :
    extractIds ["https://youtu.be/ABCDEFGHIJK",
        "https://www.youtube.com/watch?v=ABCDEFGHIJK"]
      = ["ABCDEFGHIJK", "ABCDEFGHIJK"] ∧
    ¬ (extractIds ["https://youtu.be/ABCDEFGHIJK",
        "https://www.youtube.com/watch?v=ABCDEFGHIJK"]).Nodup := by
  constructor
  · decide
  · decide

theorem gvd_aux_nil (resolve : List String → ChunkResp)
    (acc : String → Option (Bool × Nat)) :
    get_video_details_aux resolve [] acc = .ok acc := by
  rw [get_video_details_aux]
  simp

theorem gvd_aux_ne_nil (resolve : List String → ChunkResp) (ids : List String)
    (acc : String → Option (Bool × Nat)) (h : ids ≠ []) :
    get_video_details_aux resolve ids acc =
      match resolve (ids.take 50) with
      | .httpErr e =>
        if quotaIn e then .error e
        else get_video_details_aux resolve (ids.drop 50)
          (batchAssign (fun _ => (false, 0)) acc (ids.take 50))
      | .ok items =>
        get_video_details_aux resolve (ids.drop 50)
          (batchAssign (fun vid => (foundVideosOf items vid).getD (false, 0)) acc
            (ids.take 50)) := by
  rw [get_video_details_aux]
  rw [dif_neg h]

theorem chunksOf_nil : chunksOf [] = [] := by
  rw [chunksOf]
  simp

theorem chunksOf_ne_nil (l : List String) (h : l ≠ []) :
    chunksOf l = l.take 50 :: chunksOf (l.drop 50) := by
  rw [chunksOf]
  rw [dif_neg h]

theorem chunksOf_mem_length :
    ∀ (n : Nat) (l : List String) (c : List String), l.length ≤ n →
      c ∈ chunksOf l → c.length ≤ 50 := by
  intro n
  induction n with
  | zero =>
    intro l c hlen hc
    have hl : l = [] := by
      cases l with
      | nil => rfl
      | cons a t => simp at hlen
    rw [hl, chunksOf_nil] at hc
    simp at hc
  | succ n ih =>
    intro l c hlen hc
    by_cases hl : l = []
    · rw [hl, chunksOf_nil] at hc
      simp at hc
    · rw [chunksOf_ne_nil l hl] at hc
      rcases List.mem_cons.mp hc with hceq | hcmem
      · rw [hceq]
        simp [List.length_take]
      · refine ih (l.drop 50) c ?_ hcmem
        have : 0 < l.length := List.length_pos.mpr hl
        simp only [List.length_drop]
        omega

theorem chunksOf_mem_subset :
    ∀ (n : Nat) (l : List String) (c : List String), l.length ≤ n →
      c ∈ chunksOf l → ∀ v ∈ c, v ∈ l := by
  intro n
  induction n with
  | zero =>
    intro l c hlen hc
    have hl : l = [] := by
      cases l with
      | nil => rfl
      | cons a t => simp at hlen
    rw [hl, chunksOf_nil] at hc
    simp at hc
  | succ n ih =>
    intro l c hlen hc v hv
    by_cases hl : l = []
    · rw [hl, chunksOf_nil] at hc
      simp at hc
    · rw [chunksOf_ne_nil l hl] at hc
      rcases List.mem_cons.mp hc with hceq | hcmem
      · exact List.take_subset 50 l (hceq ▸ hv)
      · have hll : (l.drop 50).length ≤ n := by
          have : 0 < l.length := List.length_pos.mpr hl
          simp only [List.length_drop]
          omega
        exact List.drop_subset 50 l (ih (l.drop 50) c hll hcmem v hv)

theorem batchAssign_not_mem (g : String → Bool × Nat) (batch : List String)
    (vid : String) (hv : vid ∉ batch) :
    ∀ r, batchAssign g r batch vid = r vid := by
  induction batch with
  | nil => intro r; rfl
  | cons b rest ih =>
    intro r
    have hvb : vid ≠ b := fun hc => hv (hc ▸ List.mem_cons_self b rest)
    have hvr : vid ∉ rest := fun hc => hv (List.mem_cons_of_mem b hc)
    rw [batchAssign, List.foldl_cons]
    rw [show (List.foldl (fun r vid => fun x => if x = vid then some (g vid) else r x)
      (fun x => if x = b then some (g b) else r x) rest)
      = batchAssign g (fun x => if x = b then some (g b) else r x) rest from rfl]
    rw [ih hvr]
    simp [hvb]

theorem batchAssign_mem (g : String → Bool × Nat) (batch : List String)
    (vid : String) (hv : vid ∈ batch) :
    ∀ r, batchAssign g r batch vid = some (g vid) := by
  induction batch with
  | nil => exact absurd hv (List.not_mem_nil vid)
  | cons b rest ih =>
    intro r
    by_cases hvr : vid ∈ rest
    · rw [batchAssign, List.foldl_cons]
      exact ih hvr _
    · have hvb : vid = b := by
        rcases List.mem_cons.mp hv with h | h
        · exact h
        · exact absurd h hvr
      rw [batchAssign, List.foldl_cons]
      rw [show (List.foldl (fun r vid => fun x => if x = vid then some (g vid) else r x)
        (fun x => if x = b then some (g b) else r x) rest)
        = batchAssign g (fun x => if x = b then some (g b) else r x) rest from rfl]
      rw [batchAssign_not_mem g rest vid hvr]
      simp [hvb]

theorem foundVideosOf_aux_eq (vid : String) :
    ∀ (items : List RespItem) (f : String → Option (Bool × Nat)),
      (∀ it ∈ items, it.id = vid → ¬ it.uploadStatus = "processed") →
      (items.foldl
        (fun f it =>
          if it.uploadStatus = "processed"
          then fun x => if x = it.id then
            some (it.uploadStatus == "processed", parse_duration it.duration) else f x
          else f) f) vid = f vid := by
  intro items
  induction items with
  | nil => intro f _; rfl
  | cons it rest ih =>
    intro f h
    have hrest : ∀ x ∈ rest, x.id = vid → ¬ x.uploadStatus = "processed" :=
      fun x hx => h x (List.mem_cons_of_mem it hx)
    by_cases hst : it.uploadStatus = "processed"
    · have hid : ¬ it.id = vid := fun hc => (h it (List.mem_cons_self it rest) hc) hst
      rw [List.foldl_cons]
      simp only [hst, if_pos, ite_true]
      rw [ih _ hrest]
      have : ¬ vid = it.id := fun hc => hid hc.symm
      simp [this]
    · rw [List.foldl_cons]
      simp only [hst, if_neg, ite_false]
      exact ih f hrest

theorem foundVideosOf_none (items : List RespItem) (vid : String)
    (h : ∀ it ∈ items, it.id = vid → ¬ it.uploadStatus = "processed") :
    foundVideosOf items vid = none :=
  foundVideosOf_aux_eq vid items (fun _ => none) h

theorem gvd_aux_not_mem (resolve : List String → ChunkResp) (vid : String) :
    ∀ (n : Nat) (ids : List String) (acc res : String → Option (Bool × Nat)),
      ids.length ≤ n → vid ∉ ids →
      get_video_details_aux resolve ids acc = .ok res → res vid = acc vid := by
  intro n
  induction n with
  | zero =>
    intro ids acc res hlen hmem heq
    have hl : ids = [] := by
      cases ids with
      | nil => rfl
      | cons a t => simp at hlen
    rw [hl, gvd_aux_nil] at heq
    have : acc = res := by
      injection heq
    rw [this]
  | succ n ih =>
    intro ids acc res hlen hmem heq
    by_cases hl : ids = []
    · rw [hl, gvd_aux_nil] at heq
      have : acc = res := by
        injection heq
      rw [this]
    · have hvt : vid ∉ ids.take 50 := fun hc => hmem (List.take_subset 50 ids hc)
      have hvd : vid ∉ ids.drop 50 := fun hc => hmem (List.drop_subset 50 ids hc)
      have hln : (ids.drop 50).length ≤ n := by
        have : 0 < ids.length := List.length_pos.mpr hl
        simp only [List.length_drop]
        omega
      rw [gvd_aux_ne_nil resolve ids acc hl] at heq
      cases hr : resolve (ids.take 50) with
      | ok items =>
        simp only [hr] at heq
        rw [ih (ids.drop 50) _ res hln hvd heq]
        exact batchAssign_not_mem _ _ vid hvt acc
      | httpErr e =>
        simp only [hr] at heq
        by_cases hq : quotaIn e
        · rw [if_pos hq] at heq
          exact absurd heq (by simp)
        · rw [if_neg hq] at heq
          rw [ih (ids.drop 50) _ res hln hvd heq]
          exact batchAssign_not_mem _ _ vid hvt acc

theorem gvd_aux_err_chunk (resolve : List String → ChunkResp) (vid : String) :
    ∀ (n : Nat) (ids : List String) (acc res : String → Option (Bool × Nat))
      (c : List String) (e : String),
      ids.length ≤ n → ids.Nodup →
      get_video_details_aux resolve ids acc = .ok res →
      c ∈ chunksOf ids → resolve c = .httpErr e → quotaIn e = false → vid ∈ c →
      res vid = some (false, 0) := by
  intro n
  induction n with
  | zero =>
    intro ids acc res c e hlen hnd heq hc hr hqe hvid
    have hl : ids = [] := by
      cases ids with
      | nil => rfl
      | cons a t => simp at hlen
    rw [hl, chunksOf_nil] at hc
    simp at hc
  | succ n ih =>
    intro ids acc res c e hlen hnd heq hc hr hqe hvid
    by_cases hl : ids = []
    · rw [hl, chunksOf_nil] at hc
      simp at hc
    · have hln : (ids.drop 50).length ≤ n := by
        have : 0 < ids.length := List.length_pos.mpr hl
        simp only [List.length_drop]
        omega
      have hnd' : (ids.drop 50).Nodup := (List.drop_sublist 50 ids).nodup hnd
      rw [gvd_aux_ne_nil resolve ids acc hl] at heq
      rw [chunksOf_ne_nil ids hl] at hc
      rcases List.mem_cons.mp hc with hceq | hcmem
      · subst hceq
        simp only [hr, hqe, Bool.false_eq_true, if_false, ite_false] at heq
        have hvd : vid ∉ ids.drop 50 := by
          have hnd2 : (ids.take 50 ++ ids.drop 50).Nodup := by
            rw [List.take_append_drop]
            exact hnd
          exact (List.nodup_append.mp hnd2).2.2 hvid
        rw [gvd_aux_not_mem resolve vid n (ids.drop 50) _ res hln hvd heq]
        exact batchAssign_mem _ _ vid hvid acc
      · cases hrr : resolve (ids.take 50) with
        | ok items =>
          simp only [hrr] at heq
          exact ih (ids.drop 50) _ res c e hln hnd' heq hcmem hr hqe hvid
        | httpErr e2 =>
          simp only [hrr] at heq
          by_cases hq2 : quotaIn e2
          · rw [if_pos hq2] at heq
            exact absurd heq (by simp)
          · rw [if_neg hq2] at heq
            exact ih (ids.drop 50) _ res c e hln hnd' heq hcmem hr hqe hvid

theorem gvd_aux_ok_chunk (resolve : List String → ChunkResp) (vid : String) :
    ∀ (n : Nat) (ids : List String) (acc res : String → Option (Bool × Nat))
      (c : List String) (items : List RespItem),
      ids.length ≤ n → ids.Nodup →
      get_video_details_aux resolve ids acc = .ok res →
      c ∈ chunksOf ids → resolve c = .ok items → vid ∈ c →
      (∀ it ∈ items, it.id = vid → ¬ it.uploadStatus = "processed") →
      res vid = some (false, 0) := by
  intro n
  induction n with
  | zero =>
    intro ids acc res c items hlen hnd heq hc hr hvid hnp
    have hl : ids = [] := by
      cases ids with
      | nil => rfl
      | cons a t => simp at hlen
    rw [hl, chunksOf_nil] at hc
    simp at hc
  | succ n ih =>
    intro ids acc res c items hlen hnd heq hc hr hvid hnp
    by_cases hl : ids = []
    · rw [hl, chunksOf_nil] at hc
      simp at hc
    · have hln : (ids.drop 50).length ≤ n := by
        have : 0 < ids.length := List.length_pos.mpr hl
        simp only [List.length_drop]
        omega
      have hnd' : (ids.drop 50).Nodup := (List.drop_sublist 50 ids).nodup hnd
      rw [gvd_aux_ne_nil resolve ids acc hl] at heq
      rw [chunksOf_ne_nil ids hl] at hc
      rcases List.mem_cons.mp hc with hceq | hcmem
      · subst hceq
        simp only [hr] at heq
        have hvd : vid ∉ ids.drop 50 := by
          have hnd2 : (ids.take 50 ++ ids.drop 50).Nodup := by
            rw [List.take_append_drop]
            exact hnd
          exact (List.nodup_append.mp hnd2).2.2 hvid
        rw [gvd_aux_not_mem resolve vid n (ids.drop 50) _ res hln hvd heq]
        rw [batchAssign_mem _ _ vid hvid acc]
        rw [foundVideosOf_none items vid hnp]
        rfl
      · cases hrr : resolve (ids.take 50) with
        | ok items2 =>
          simp only [hrr] at heq
          exact ih (ids.drop 50) _ res c items hln hnd' heq hcmem hr hvid hnp
        | httpErr e2 =>
          simp only [hrr] at heq
          by_cases hq2 : quotaIn e2
          · rw [if_pos hq2] at heq
            exact absurd heq (by simp)
          · rw [if_neg hq2] at heq
            exact ih (ids.drop 50) _ res c items hln hnd' heq hcmem hr hvid hnp

theorem gvd_aux_quota (resolve : List String → ChunkResp) :
    ∀ (n : Nat) (ids : List String) (acc : String → Option (Bool × Nat))
      (c : List String),
      (chunksOf ids)[n]? = some c → isQuotaResp (resolve c) = true →
      (∀ m c', m < n → (chunksOf ids)[m]? = some c' → isQuotaResp (resolve c') = false) →
      ∃ e, get_video_details_aux resolve ids acc = .error e := by
  intro n
  induction n with
  | zero =>
    intro ids acc c hc hq hbefore
    by_cases hl : ids = []
    · rw [hl, chunksOf_nil] at hc
      simp at hc
    · rw [chunksOf_ne_nil ids hl] at hc
      simp only [List.getElem?_cons_zero, Option.some.injEq] at hc
      subst hc
      cases hr : resolve (ids.take 50) with
      | ok items =>
        rw [hr] at hq
        simp [isQuotaResp] at hq
      | httpErr e =>
        rw [hr] at hq
        simp only [isQuotaResp] at hq
        refine ⟨e, ?_⟩
        rw [gvd_aux_ne_nil resolve ids acc hl]
        simp only [hr, hq, if_pos, ite_true]
  | succ n ih =>
    intro ids acc c hc hq hbefore
    have hl : ids ≠ [] := by
      intro h
      rw [h, chunksOf_nil] at hc
      simp at hc
    have h0 : (chunksOf ids)[0]? = some (ids.take 50) := by
      rw [chunksOf_ne_nil ids hl]
      simp
    have hq0 : isQuotaResp (resolve (ids.take 50)) = false :=
      hbefore 0 _ (Nat.succ_pos n) h0
    have hcshift : (chunksOf (ids.drop 50))[n]? = some c := by
      rw [chunksOf_ne_nil ids hl] at hc
      simpa using hc
    have hbefore' : ∀ m c', m < n → (chunksOf (ids.drop 50))[m]? = some c' →
        isQuotaResp (resolve c') = false := by
      intro m c' hm hmc
      refine hbefore (m + 1) c' (by omega) ?_
      rw [chunksOf_ne_nil ids hl]
      simpa using hmc
    cases hr : resolve (ids.take 50) with
    | ok items =>
      obtain ⟨e, he⟩ := ih (ids.drop 50)
        (batchAssign (fun vid => (foundVideosOf items vid).getD (false, 0)) acc (ids.take 50))
        c hcshift hq hbefore'
      refine ⟨e, ?_⟩
      rw [gvd_aux_ne_nil resolve ids acc hl]
      simp only [hr]
      exact he
    | httpErr e2 =>
      rw [hr] at hq0
      simp only [isQuotaResp] at hq0
      obtain ⟨e, he⟩ := ih (ids.drop 50)
        (batchAssign (fun _ => (false, 0)) acc (ids.take 50)) c hcshift hq hbefore'
      refine ⟨e, ?_⟩
      rw [gvd_aux_ne_nil resolve ids acc hl]
      simp only [hr, hq0, Bool.false_eq_true, if_false, ite_false]
      exact he

/-- C3 amended: the metadata resolver partitions the id list into chunks
of at most 50 (src/youtube.py line 96), and (b) when a chunk's call fails
with a quota-classified error and no earlier chunk did, the quota
exception propagates as the result of the whole resolution for every id
sequence, independent of the responses of any later chunk (the hypotheses
constrain only chunks up to the failing one).  For a working set with no
repeated ItemID: (a) when a chunk's call fails with a non-quota HttpError
every id of that chunk is reported (exists = false, duration 0) while
resolution of the other chunks continues (lines 119-124); (c) ids absent
from a successful response, or present only with an uploadStatus other
than processed, are reported (exists = false, duration 0) (lines
106-117).  The no-repeat restriction on (a) and (c) is forced: results is
a dictionary whose last write wins, so an id repeated in a later chunk
has its earlier report overwritten (see the counterexample). -/
theorem video_details_chunk_behavior :
    (∀ (ids c : List String), c ∈ chunksOf ids → c.length ≤ 50) ∧
    (∀ (resolve : List String → ChunkResp) (ids : List String)
      (res : String → Option (Bool × Nat)) (c : List String) (e vid : String),
      ids.Nodup → get_video_details resolve ids = .ok res → c ∈ chunksOf ids →
      resolve c = .httpErr e → quotaIn e = false → vid ∈ c →
      res vid = some (false, 0)) ∧
    (∀ (resolve : List String → ChunkResp) (ids : List String) (n : Nat)
      (c : List String),
      (chunksOf ids)[n]? = some c → isQuotaResp (resolve c) = true →
      (∀ m c', m < n → (chunksOf ids)[m]? = some c' → isQuotaResp (resolve c') = false) →
      ∃ e, get_video_details resolve ids = .error e) ∧
    (∀ (resolve : List String → ChunkResp) (ids : List String)
      (res : String → Option (Bool × Nat)) (c : List String)
      (items : List RespItem) (vid : String),
      ids.Nodup → get_video_details resolve ids = .ok res → c ∈ chunksOf ids →
      resolve c = .ok items → vid ∈ c →
      (∀ it ∈ items, it.id = vid → ¬ it.uploadStatus = "processed") →
      res vid = some (false, 0)) := by
  refine ⟨?_, ?_, ?_, ?_⟩
  · intro ids c hc
    exact chunksOf_mem_length ids.length ids c le_rfl hc
  · intro resolve ids res c e vid hnd heq hc hr hqe hvid
    exact gvd_aux_err_chunk resolve vid ids.length ids _ res c e le_rfl hnd heq hc hr hqe hvid
  · intro resolve ids n c hc hq hbefore
    exact gvd_aux_quota resolve n ids _ c hc hq hbefore
  · intro resolve ids res c items vid hnd heq hc hr hvid hnp
    exact gvd_aux_ok_chunk resolve vid ids.length ids _ res c items le_rfl hnd heq hc hr hvid hnp

/-- Witness for C3: a single chunk whose call fails with a quota-classified
error makes the whole resolution raise. -/
theorem video_details_chunk_behavior_witness :
    ∃ e, get_video_details (fun _ => ChunkResp.httpErr "quotaExceeded") ["a"] =
      Except.error e :=
  video_details_chunk_behavior.2.2.1 (fun _ => ChunkResp.httpErr "quotaExceeded")
    ["a"] 0 ["a"]
    (by
      have hd : List.drop 50 ["a"] = [] := by decide
      rw [chunksOf_ne_nil ["a"] (by simp), hd, chunksOf_nil]
      decide)
    (by decide)
    (fun m c' hm _ => absurd hm (Nat.not_lt_zero m))

/-- C3 counterexample: in dupIds the ItemID a lies in the first chunk,
whose call fails with the non-quota error boom, yet a is finally reported
(exists = true, duration 1): the later successful chunk also containing a
overwrites the failing chunk's (false, 0) dictionary entry
(src/youtube.py lines 116-117 and 123-124), so the unrestricted claim
that every ItemID of a non-quota-failing chunk is reported
(exists = false, duration 0) is false. -/
theorem video_details_duplicate_overwrite :
    "a" ∈ dupIds.take 50 ∧
    dupIds.take 50 ∈ chunksOf dupIds ∧
    dupResolve (dupIds.take 50) = ChunkResp.httpErr "boom" ∧
    quotaIn "boom" = false ∧
    ∃ res, get_video_details dupResolve dupIds = Except.ok res ∧
      res "a" = some (true, 1) ∧ res "a" ≠ some (false, 0) := by
  have ht : dupIds.take 50 = "a" :: List.replicate 49 "b" := by decide
  have hd : dupIds.drop 50 = ["a"] := by decide
  have hr1 : dupResolve ("a" :: List.replicate 49 "b") = ChunkResp.httpErr "boom" := by
    decide
  have hq : quotaIn "boom" = false := by decide
  have step2 : ∀ acc, get_video_details_aux dupResolve ["a"] acc =
      Except.ok (batchAssign
        (fun vid => (foundVideosOf [⟨"a", "processed", "PT1S"⟩] vid).getD (false, 0))
        acc ["a"]) := by
    intro acc
    rw [gvd_aux_ne_nil dupResolve ["a"] acc (by simp)]
    have ht2 : (["a"] : List String).take 50 = ["a"] := by decide
    have hd2 : (["a"] : List String).drop 50 = [] := by decide
    have hr2 : dupResolve ["a"] = ChunkResp.ok [⟨"a", "processed", "PT1S"⟩] := by decide
    simp only [ht2, hd2, hr2, gvd_aux_nil]
  have step1 : get_video_details dupResolve dupIds =
      Except.ok (batchAssign
        (fun vid => (foundVideosOf [⟨"a", "processed", "PT1S"⟩] vid).getD (false, 0))
        (batchAssign (fun _ => (false, 0)) (fun _ => none)
          ("a" :: List.replicate 49 "b")) ["a"]) := by
    rw [show get_video_details dupResolve dupIds
        = get_video_details_aux dupResolve dupIds (fun _ => none) from rfl]
    rw [gvd_aux_ne_nil dupResolve dupIds (fun _ => none) (by decide)]
    simp only [ht, hd, hr1, hq, Bool.false_eq_true, if_false, ite_false]
    exact step2 _
  refine ⟨by decide, ?_, ht ▸ hr1, hq, ?_⟩
  · rw [chunksOf_ne_nil dupIds (by decide)]
    exact List.mem_cons_self _ _
  · refine ⟨_, step1, ?_, ?_⟩
    · rw [batchAssign_mem _ _ "a" (by decide)]
      decide
    · rw [batchAssign_mem _ _ "a" (by decide)]
      decide

end Tubelist
